import Mathlib

/-!
Verification of the mockup-generator pipeline (generator/main.py).

The development shallowly embeds the Python program: pure image and list
manipulations become Lean functions; external collaborators (HTTP fetches,
JPEG encoding, LANCZOS resampling, font rendering) become oracle functions
carried in an environment record, with their structural behaviour (sizes,
modes, error conditions) modelled from the Pillow documentation; machine
floats of the geometry code are modelled by exact rationals.
-/

set_option maxRecDepth 4000

/-- A pixel with red, green, blue and alpha channels, as in mode RGBA. -/
structure RGBA where
  r : Nat
  g : Nat
  b : Nat
  a : Nat
deriving DecidableEq, Repr

/-- The fully transparent pixel (0,0,0,0) written by the flood fill. -/
def zeroPix : RGBA := ⟨0, 0, 0, 0⟩

/-- A decoded PIL image: a mode string, a size, and a total pixel map.
Pixels outside the w times h grid are irrelevant. -/
structure Img where
  mode : String
  w : Nat
  h : Nat
  px : Nat → Nat → RGBA

/-- Pixel lookup with integer coordinates, used by the flood fill whose
stack carries integer points; it is only consulted in bounds. -/
def Img.pxZ (img : Img) (p : Int × Int) : RGBA :=
  img.px p.1.toNat p.2.toNat

/-- Errors that PIL or Python raise inside the per-URL try block. -/
inductive PyErr where
  | indexError
  | typeError
  | zeroDiv
  | valueError
deriving DecidableEq, Repr

/-- Image.getpixel: raises IndexError outside the image bounds
(models the access in the brightness check, main.py line 297). -/
def getpixelE (img : Img) (x y : Int) : Except PyErr RGBA :=
  if 0 ≤ x ∧ x < (img.w : Int) ∧ 0 ≤ y ∧ y < (img.h : Int) then
    .ok (img.px x.toNat y.toNat)
  else .error .indexError

/-- Image.crop((x1,y1,x2,y2)): the result has size (x2-x1, y2-y1) and
reads the source inside its bounds, zero-padding outside, keeping the mode. -/
def cropImg (img : Img) (x1 y1 x2 y2 : Int) : Img :=
  { mode := img.mode
    w := (x2 - x1).toNat
    h := (y2 - y1).toNat
    px := fun i j =>
      let sx := x1 + (i : Int)
      let sy := y1 + (j : Int)
      if 0 ≤ sx ∧ sx < (img.w : Int) ∧ 0 ≤ sy ∧ sy < (img.h : Int)
          ∧ i < (x2 - x1).toNat ∧ j < (y2 - y1).toNat then
        img.px sx.toNat sy.toNat
      else zeroPix }

/-- Points of one row whose alpha channel is nonzero, left to right. -/
def rowPoints (img : Img) (y : Nat) : List (Nat × Nat) :=
  (List.range img.w).filterMap
    (fun x => if (img.px x y).a ≠ 0 then some (x, y) else none)

/-- Concatenation of a list of lists (kept self-contained). -/
def catLists : List (List α) → List α
  | [] => []
  | l :: ls => l ++ catLists ls

/-- All points of the image whose alpha channel is nonzero, row by row. -/
def alphaPoints (img : Img) : List (Nat × Nat) :=
  catLists ((List.range img.h).map (rowPoints img))

/-- One pass accumulating (min x, min y, max x, max y) over a point list. -/
def bboxFold : List (Nat × Nat) → Nat × Nat × Nat × Nat → Nat × Nat × Nat × Nat
  | [], acc => acc
  | (x, y) :: rest, (a, b, c, d) =>
      bboxFold rest (min a x, min b y, max c x, max d y)

/-- Image.getbbox: the bounding box (left, upper, right, lower) of the
pixels that are not fully transparent, right and lower exclusive; none if
the image has no such pixel. Modelled from the Pillow documentation of
getbbox on an image with an alpha channel. -/
def getbbox (img : Img) : Option (Nat × Nat × Nat × Nat) :=
  match alphaPoints img with
  | [] => none
  | (x, y) :: rest =>
      let m := bboxFold rest (x, y, x, y)
      some (m.1, m.2.1, m.2.2.1 + 1, m.2.2.2 + 1)

/-- get_trimmed_image_with_padding (main.py lines 21 to 32): crop to the
bounding box expanded by the paddings and clamped to the image bounds;
none when the image is fully transparent. -/
def getTrimmedImageWithPadding (img : Img) (maxPaddingX maxPaddingY : Nat) :
    Option Img :=
  match getbbox img with
  | none => none
  | some (x1, y1, x2, y2) =>
      let newX1 := x1 - maxPaddingX
      let newY1 := y1 - maxPaddingY
      let newX2 := min img.w (x2 + maxPaddingX)
      let newY2 := min img.h (y2 + maxPaddingY)
      some (cropImg img (newX1 : Int) (newY1 : Int) (newX2 : Int) (newY2 : Int))

/-- The match predicate of the magic-wand fill (main.py line 93): each of
the R, G, B channels differs from the seed by strictly less than 30. -/
def matchSeed (seed c : RGBA) : Bool :=
  ((c.r : Int) - (seed.r : Int)).natAbs < 30 ∧
  ((c.g : Int) - (seed.g : Int)).natAbs < 30 ∧
  ((c.b : Int) - (seed.b : Int)).natAbs < 30

/-- The four neighbours pushed by the fill, in the order in which the
Python stack pops them (extend appends, pop takes the last). -/
def neighborsZ (p : Int × Int) : List (Int × Int) :=
  [(p.1, p.2 - 1), (p.1, p.2 + 1), (p.1 - 1, p.2), (p.1 + 1, p.2)]

/-- The in-bounds test of the fill loop (main.py line 86). -/
def inGridZ (wd ht : Nat) (p : Int × Int) : Prop :=
  0 ≤ p.1 ∧ p.1 < (wd : Int) ∧ 0 ≤ p.2 ∧ p.2 < (ht : Int)

instance (wd ht : Nat) (p : Int × Int) : Decidable (inGridZ wd ht p) := by
  unfold inGridZ; infer_instance

/-- The in-bounds points of a wd times ht image, as a finite set. -/
def gridF (wd ht : Nat) : Finset (Int × Int) :=
  ((Finset.range wd) ×ˢ (Finset.range ht)).image
    (fun p => ((p.1 : Int), (p.2 : Int)))

/-- The stack loop of the magic-wand flood fill (main.py lines 84 to 95),
carried out on a fuel budget large enough to be proven never exhausted.
The mutable pixel array is represented by the original map overlaid with
the set of cleared points, since every write stores (0,0,0,0); the loop
returns the final cleared set. -/
def floodLoop (orig : Int × Int → RGBA) (wd ht : Nat) (seed : RGBA) :
    Nat → List (Int × Int) → Finset (Int × Int) → Finset (Int × Int) →
    Finset (Int × Int)
  | 0, _, _, cleared => cleared
  | _ + 1, [], _, cleared => cleared
  | fuel + 1, p :: rest, visited, cleared =>
      if p ∈ visited ∨ ¬ inGridZ wd ht p then
        floodLoop orig wd ht seed fuel rest visited cleared
      else
        let visited' := insert p visited
        let cur := if p ∈ cleared then zeroPix else orig p
        if matchSeed seed cur then
          floodLoop orig wd ht seed fuel (neighborsZ p ++ rest) visited'
            (insert p cleared)
        else
          floodLoop orig wd ht seed fuel rest visited' cleared

/-- The flood fill of process_image started at the seed (0,0): returns the
set of points whose pixel is set to (0,0,0,0). The fuel bound covers the
worst case: each iteration either pops one stack entry or newly visits one
of the at most w times h grid points while pushing four entries. -/
def floodFill (img : Img) : Finset (Int × Int) :=
  floodLoop img.pxZ img.w img.h (img.pxZ (0, 0))
    (5 * (img.w * img.h) + 2) [(0, 0)] ∅ ∅

/-- The design image after background removal: pixels cleared by the flood
fill become (0,0,0,0), the rest are unchanged (main.py lines 77 to 95). -/
def segmentImage (img : Img) : Img :=
  let cleared := floodFill img
  { img with px := fun x y =>
      if ((x : Int), (y : Int)) ∈ cleared then zeroPix else img.px x y }

/-- A 4-connected path from the seed (0,0) to a point, every pixel of
which (the seed included) matches the seed colour within the per-channel
tolerance and lies inside the image: the set of points the claim says the
fill clears. -/
inductive ReachSeed (img : Img) : Int × Int → Prop where
  | base :
      inGridZ img.w img.h (0, 0) →
      matchSeed (img.pxZ (0, 0)) (img.pxZ (0, 0)) = true →
      ReachSeed img (0, 0)
  | step (p q : Int × Int) :
      ReachSeed img p →
      q ∈ neighborsZ p →
      inGridZ img.w img.h q →
      matchSeed (img.pxZ (0, 0)) (img.pxZ q) = true →
      ReachSeed img q

/-- Python int() applied to an exact rational: truncation toward zero. -/
def pyInt (q : ℚ) : Int :=
  if 0 ≤ q then ⌊q⌋ else -⌊-q⌋

/-- Placement rectangle or crop rectangle {x, y, w, h} from the config. -/
structure Coords where
  x : Int
  y : Int
  w : Nat
  h : Nat
deriving DecidableEq, Repr

/-- The scale-and-paste geometry of process_image (main.py lines 103 to
110), with Python float arithmetic modelled by exact rationals: the
uniform scale, the truncated resize target, the horizontally centred x
position and the y position 20 below the rectangle top. Python floor
division on ints is Int.fdiv. -/
structure PasteGeom where
  scale : ℚ
  finalW : Nat
  finalH : Nat
  finalX : Int
  finalY : Int

/-- Geometry computation of process_image for a trimmed design of size
(dw, dh) and a placement rectangle mc. The minimum of the two exact
quotients is selected by cross multiplication, and the truncation of the
exact products dw * scale and dh * scale is natural division; the claims
prove these equal the formulas min(w/dw, h/dh) and int(dim * scale). -/
def pasteGeometry (dw dh : Nat) (mc : Coords) : PasteGeom :=
  let minIsW := mc.w * dh ≤ mc.h * dw
  { scale := if minIsW then mkRat mc.w dw else mkRat mc.h dh
    finalW := if minIsW then (dw * mc.w) / dw else (dw * mc.h) / dh
    finalH := if minIsW then (dh * mc.w) / dw else (dh * mc.h) / dh
    finalX := mc.x + Int.fdiv ((mc.w : Int) -
      (((if minIsW then (dw * mc.w) / dw else (dw * mc.h) / dh) : Nat) : Int)) 2
    finalY := mc.y + 20 }

/-- Splitting a character list at every occurrence of one character. -/
def splitOnCharAux (c : Char) : List Char → List Char → List (List Char)
  | [], acc => [acc.reverse]
  | d :: rest, acc =>
      if d == c then acc.reverse :: splitOnCharAux c rest []
      else splitOnCharAux c rest (d :: acc)

/-- os.path.basename for the URL filenames: the part after the last
slash. -/
def basename (s : String) : String :=
  String.mk (((splitOnCharAux '/' s.toList []).getLastD s.toList))

/-- Python str.strip: drop leading and trailing whitespace. -/
def pyStrip (s : String) : String :=
  let ws := fun (c : Char) => c.isWhitespace
  String.mk (((s.toList.dropWhile ws).reverse.dropWhile ws).reverse)

/-- The root part of os.path.splitext: everything before the last dot,
except that a dot inside the leading run of dots starts no extension. -/
def splitextBase (s : String) : String :=
  let cs := s.toList
  let lead := (cs.takeWhile (fun c => c == '.')).length
  let dotIdxs := (List.range cs.length).filter
    (fun i => lead ≤ i ∧ cs.getD i ' ' == '.')
  match dotIdxs.getLast? with
  | none => s
  | some i => String.mk (cs.take i)

/-- Does p occur at the start of s (character lists)? -/
def prefixOf : List Char → List Char → Bool
  | [], _ => true
  | _ :: _, [] => false
  | a :: as, b :: bs => a == b && prefixOf as bs

/-- The Python substring test `p in s` on character lists: p occurs
contiguously somewhere in s. -/
def substrAt : List Char → List Char → Bool
  | p, [] => prefixOf p []
  | p, s@(_ :: rest) => prefixOf p s || substrAt p rest

/-- The Python substring test `p in s` on strings. -/
def substrB (p s : String) : Bool :=
  substrAt p.toList s.toList

/-- Left-to-right non-overlapping replacement, the semantics of Python
str.replace for a nonempty pattern; the fuel is the list length, consumed
at least one character per step. -/
def replaceAux (pat repl : List Char) : Nat → List Char → List Char
  | 0, s => s
  | _ + 1, [] => []
  | fuel + 1, c :: rest =>
      if pat ≠ [] ∧ prefixOf pat (c :: rest) then
        repl ++ replaceAux pat repl fuel (rest.drop (pat.length - 1))
      else c :: replaceAux pat repl fuel rest

/-- Python str.replace on strings (nonempty pattern). -/
def pyReplace (s pat repl : String) : String :=
  String.mk (replaceAux pat.toList repl.toList s.toList.length s.toList)

/-- Python str.startswith. -/
def pyStartsWith (s p : String) : Bool :=
  prefixOf p.toList s.toList

/-- A matching rule of one domain, as read from config.json. -/
structure PyRule where
  pattern : String
  action : Option String
  coords : Option Coords
  skipWhite : Bool
  skipBlack : Bool
  mockupSets : List String
deriving DecidableEq, Repr

/-- Stable insertion keeping longer patterns first: the inserted rule goes
in front of the first rule whose pattern is not longer. -/
def insertRule (r : PyRule) : List PyRule → List PyRule
  | [] => [r]
  | s :: rest =>
      if s.pattern.length ≤ r.pattern.length then r :: s :: rest
      else s :: insertRule r rest

/-- The one-time per-domain sort of main.py line 240: a stable sort by
descending pattern length, the semantics of list.sort with reverse=True. -/
def sortRules : List PyRule → List PyRule
  | [] => []
  | r :: rest => insertRule r (sortRules rest)

/-- Rule selection of main.py line 279: the first rule of the sorted list
whose pattern is a substring of the filename. -/
def findRule (rules : List PyRule) (filename : String) : Option PyRule :=
  (sortRules rules).find? (fun r => substrB r.pattern filename)

/-- Specification-side selector, following the words of the claim: among
the rules whose pattern is a substring of the filename, the one with the
longest pattern, earlier rules winning ties. -/
def findBest (filename : String) : List PyRule → Option PyRule
  | [] => none
  | r :: rest =>
      if substrB r.pattern filename then
        match findBest filename rest with
        | some b =>
            if r.pattern.length < b.pattern.length then some b else some r
        | none => some r
      else findBest filename rest

/-- The window computation of main.py lines 255 to 263: walk the fetched
list, stopping before the first URL found in the history and before the
index reaches the per-domain cap. -/
def computeWindowAux (hist : List String) (maxN : Nat) :
    List String → Nat → List String
  | [], _ => []
  | u :: rest, i =>
      if u ∈ hist then []
      else if maxN ≤ i then []
      else u :: computeWindowAux hist maxN rest (i + 1)

/-- urls_to_process for one domain, from the fetched list, the stored
history and max_urls_per_domain. -/
def computeWindow (allUrls hist : List String) (maxN : Nat) : List String :=
  computeWindowAux hist maxN allUrls 0

/-- The history update of main.py lines 360 to 362: prepend the URLs that
completed this run, then truncate to the retention length. -/
def updateHistory (success old : List String) (keep : Nat) : List String :=
  (success ++ old).take keep

/-- p is a prefix of l. -/
def listPfx (p l : List String) : Prop := ∃ t, p ++ t = l

/-- Lookup in an insertion-ordered dict modelled as an association list. -/
def dictGet {β : Type} : List (String × β) → String → Option β
  | [], _ => none
  | (k2, v) :: rest, k => if k2 = k then some v else dictGet rest k

/-- Lookup with a default, the semantics of dict.get(k, d). -/
def dictGetD {β : Type} (l : List (String × β)) (k : String) (d : β) : β :=
  (dictGet l k).getD d

/-- Keyed write with Python dict semantics: an existing key keeps its
position, a new key goes to the end. -/
def dictSet {β : Type} : List (String × β) → String → β → List (String × β)
  | [], k, v => [(k, v)]
  | (k2, v2) :: rest, k, v =>
      if k2 = k then (k2, v) :: rest else (k2, v2) :: dictSet rest k v

/-- One mockup_sets entry of config.json. -/
structure MockupSetCfg where
  whiteUrl : Option String
  blackUrl : Option String
  coords : Option Coords
  watermark : Option String
  prefixStr : String
  suffixStr : String

/-- One mockup_cache entry (main.py lines 313 to 320): the two base images
as downloaded (possibly failed), and the copied metadata. -/
structure MockupData where
  white : Option Img
  black : Option Img
  coords : Option Coords
  watermark : Option String
  prefixStr : String
  suffixStr : String

/-- The external world of one run. Downloads and the repo size scan are
oracles; resampling, compositing and text rendering only supply pixel
data, while sizes and modes follow the structural PIL semantics. -/
structure GenEnv where
  fetchList : String → Option (List String)
  download : String → Option Img
  repoSizeMB : Nat → ℚ
  resizePx : Img → Nat → Nat → Nat → Nat → RGBA
  pastePx : Img → Img → Int → Int → Nat → Nat → RGBA
  textPx : Img → String → Nat → Nat → RGBA
  encodeJpeg : Img → Nat
  cleanTitle : String → String
  timeStamp : String

/-- Image.resize: a new image of the requested size in the same mode,
pixel data supplied by the resampling oracle. -/
def resizeTo (env : GenEnv) (img : Img) (w h : Nat) : Img :=
  { mode := img.mode, w := w, h := h, px := env.resizePx img w h }

/-- Image.paste onto a copy of the base: size and mode of the base are
kept, pixel data supplied by the compositing oracle. -/
def pasteOn (env : GenEnv) (base over : Img) (x y : Int) : Img :=
  { mode := base.mode, w := base.w, h := base.h,
    px := env.pastePx base over x y }

/-- ImageDraw text over the composite: in-place draw keeps size and mode. -/
def drawTextOn (env : GenEnv) (img : Img) (s : String) : Img :=
  { mode := img.mode, w := img.w, h := img.h, px := env.textPx img s }

/-- Image.convert to mode RGB. -/
def convertRGB (img : Img) : Img :=
  { img with mode := "RGB" }

/-- Image.save(..., format=JPEG): the JPEG encoder has no rawmode for an
image with an alpha channel and raises OSError on mode RGBA; otherwise it
produces bytes, modelled by the encoder oracle. -/
def saveJpegE (env : GenEnv) (img : Img) : Except PyErr Nat :=
  if img.mode = "RGBA" then .error .valueError else .ok (env.encodeJpeg img)

/-- The watermark step of process_image (main.py lines 116 to 145): an
http(s) spec is downloaded, downscaled to width 280 when wider, and pasted
bottom right; any other nonempty spec is rendered as text; an absent or
empty spec leaves the composite unchanged. Raises only when the downscale
target collapses to height 0, which resize rejects. -/
def applyWatermark (env : GenEnv) (fm : Img) (wmSpec : Option String) :
    Except PyErr Img :=
  let content := wmSpec.getD ""
  if content = "" then .ok fm
  else if pyStartsWith content "http://" ∨ pyStartsWith content "https://" then
    match env.download content with
    | none => .ok fm
    | some wm =>
        if 280 < wm.w then
          let newW : Nat := 280
          let newH := (newW * wm.h) / wm.w
          if newH = 0 then .error .valueError
          else
            let wm2 := resizeTo env wm newW newH
            .ok (pasteOn env fm wm2
              ((fm.w : Int) - (wm2.w : Int) - 20)
              ((fm.h : Int) - (wm2.h : Int) - 50))
        else
          .ok (pasteOn env fm wm
            ((fm.w : Int) - (wm.w : Int) - 20)
            ((fm.h : Int) - (wm.h : Int) - 50))
  else
    .ok (drawTextOn env fm content)

/-- process_image (main.py lines 74 to 147): magic-wand fill from (0,0),
trim with padding, scale and paste into the placement rectangle of the
mockup, then watermark. Exceptions of the Python code are the error
cases: getpixel on an empty crop, subscripting absent placement coords,
division by a zero design dimension, and resize to an empty size. Returns
none when the trimmed design is empty. -/
def processImage (env : GenEnv) (design mockupImg : Img)
    (mCoords : Option Coords) (wmSpec : Option String) :
    Except PyErr (Option Img) :=
  if design.w = 0 ∨ design.h = 0 then .error .indexError
  else
    let segmented := segmentImage design
    match getTrimmedImageWithPadding segmented 40 20 with
    | none => .ok none
    | some trimmed =>
        match mCoords with
        | none => .error .typeError
        | some mc =>
            if trimmed.w = 0 ∨ trimmed.h = 0 then .error .zeroDiv
            else
              let g := pasteGeometry trimmed.w trimmed.h mc
              if g.finalW = 0 ∨ g.finalH = 0 then .error .valueError
              else
                let resized := resizeTo env trimmed g.finalW g.finalH
                let fm := pasteOn env mockupImg resized g.finalX g.finalY
                match applyWatermark env fm wmSpec with
                | .error e => .error e
                | .ok fm2 => .ok (some fm2)

/-- The output filename of main.py lines 335 to 339, with the keyword
regex of clean_title supplied by the title oracle. -/
def entryName (env : GenEnv) (filename prefixStr suffixStr : String) :
    String :=
  let base := splitextBase filename
  let cleaned := env.cleanTitle (pyStrip (pyReplace base "-" " "))
  pyStrip (pyReplace (prefixStr ++ " " ++ cleaned ++ " " ++ suffixStr) "  " " ")
    ++ ".jpg"

/-- The per-domain mockup cache and the run-wide zip accumulator. -/
abbrev Cache := List (String × MockupData)

/-- images_for_zip: per mockup-set name, the accumulated entries. -/
abbrev Zips := List (String × List (String × Nat))

/-- Building one cache entry (main.py lines 313 to 320): download_image
swallows every error, including one on a missing URL, returning none. -/
def buildCacheEntry (env : GenEnv) (m : MockupSetCfg) : MockupData :=
  { white := m.whiteUrl.bind env.download
    black := m.blackUrl.bind env.download
    coords := m.coords
    watermark := m.watermark
    prefixStr := m.prefixStr
    suffixStr := m.suffixStr }

/-- Appending one produced image under its mockup-set name (main.py lines
345 to 347). -/
def zipAppend (z : Zips) (name : String) (e : String × Nat) : Zips :=
  match dictGet z name with
  | none => z ++ [(name, [e])]
  | some l => dictSet z name (l ++ [e])

/-- The inner mockup-set loop of one URL (main.py lines 308 to 347). The
third component records whether an exception escaped to the per-URL
handler; cache and zip mutations made before the raise are kept, as in
Python. An absent mockup-set name, a missing cache entry, a failed base
download and an empty composite each continue with the next name. -/
def mockupLoop (env : GenEnv) (mockupSetsCfg : List (String × MockupSetCfg))
    (isWhite : Bool) (cropped : Img) (filename : String) :
    List String → Cache → Zips → Cache × Zips × Bool
  | [], c, z => (c, z, false)
  | name :: rest, c, z =>
      let ensured : Option Cache :=
        match dictGet c name with
        | some _ => some c
        | none =>
            match dictGet mockupSetsCfg name with
            | some m => some (dictSet c name (buildCacheEntry env m))
            | none => none
      match ensured with
      | none => mockupLoop env mockupSetsCfg isWhite cropped filename rest c z
      | some c1 =>
          match dictGet c1 name with
          | none => mockupLoop env mockupSetsCfg isWhite cropped filename rest c1 z
          | some d =>
              match (if isWhite then d.white else d.black) with
              | none => mockupLoop env mockupSetsCfg isWhite cropped filename rest c1 z
              | some base =>
                  match processImage env cropped base d.coords d.watermark with
                  | .error _ => (c1, z, true)
                  | .ok none =>
                      mockupLoop env mockupSetsCfg isWhite cropped filename rest c1 z
                  | .ok (some fm) =>
                      let fname := entryName env filename d.prefixStr d.suffixStr
                      let _rgb := convertRGB fm
                      match saveJpegE env fm with
                      | .error _ => (c1, z, true)
                      | .ok bytes =>
                          mockupLoop env mockupSetsCfg isWhite cropped filename rest c1
                            (zipAppend z name (fname, bytes))

/-- MAX_REPO_SIZE_MB (main.py line 17). -/
def maxRepoSizeMB : ℚ := 900

/-- The brightness classification of main.py lines 298 to 299: the mean
of the three colour channels exceeds 128; since the channels are machine
integers the exact test sum / 3 > 128 is the integer test sum > 384. -/
def isWhitePix (pix : RGBA) : Bool :=
  384 < pix.r + pix.g + pix.b

/-- The outcome of one URL of the window, deciding which counter moves:
only ok raises the processed counter (main.py lines 277 to 354). -/
inductive UrlRes where
  | noRule
  | dlFail
  | noCoords
  | brightSkip
  | raised
  | ok
deriving DecidableEq, Repr

/-- The static configuration of a run (config.json as loaded). -/
structure GenCfg where
  maxUrls : Nat
  histKeep : Nat
  domains : List (String × List PyRule)
  mockupSets : List (String × MockupSetCfg)

/-- One URL of the window (main.py lines 277 to 350): rule matching and
the skip action outside the try block, then download, brightness check,
crop and the mockup loop inside it; the returned cache and zips include
the mutations made before any raise. -/
def processUrl (env : GenEnv) (cfg : GenCfg) (sortedRules : List PyRule)
    (c : Cache) (z : Zips) (url : String) : Cache × Zips × UrlRes :=
  let filename := basename url
  match (sortedRules).find? (fun r => substrB r.pattern filename) with
  | none => (c, z, .noRule)
  | some rule =>
      if rule.action = some "skip" then (c, z, .noRule)
      else
        match env.download url with
        | none => (c, z, .dlFail)
        | some img =>
            match rule.coords with
            | none => (c, z, .noCoords)
            | some cc =>
                match getpixelE img cc.x cc.y with
                | .error _ => (c, z, .raised)
                | .ok pix =>
                    let isWhite := isWhitePix pix
                    if (rule.skipWhite && isWhite) || (rule.skipBlack && !isWhite) then
                      (c, z, .brightSkip)
                    else
                      let cropped := cropImg img cc.x cc.y
                        (cc.x + (cc.w : Int)) (cc.y + (cc.h : Int))
                      let r := mockupLoop env cfg.mockupSets isWhite cropped
                        filename rule.mockupSets c z
                      if r.2.2 then (r.1, r.2.1, .raised)
                      else (r.1, r.2.1, .ok)

/-- The per-domain mutable state of the URL loop (main.py lines 271 to
274), with the run-wide zip accumulator threaded through. -/
structure DomState where
  cache : Cache
  zips : Zips
  processed : Nat
  skipped : Nat
  success : List String

/-- One iteration of the URL loop: an ok outcome counts the URL processed
and appends it to the success list, every other outcome counts it
skipped. -/
def urlStep (env : GenEnv) (cfg : GenCfg) (sortedRules : List PyRule)
    (st : DomState) (url : String) : DomState :=
  let r := processUrl env cfg sortedRules st.cache st.zips url
  match r.2.2 with
  | .ok =>
      { cache := r.1, zips := r.2.1, processed := st.processed + 1,
        skipped := st.skipped, success := st.success ++ [url] }
  | _ =>
      { cache := r.1, zips := r.2.1, processed := st.processed,
        skipped := st.skipped + 1, success := st.success }

/-- The URL loop over the window of one domain. -/
def urlLoop (env : GenEnv) (cfg : GenCfg) (sortedRules : List PyRule) :
    List String → DomState → DomState
  | [], st => st
  | url :: rest, st =>
      urlLoop env cfg sortedRules rest (urlStep env cfg sortedRules st url)

/-- The run-wide state threaded through the domain loop: the zip
accumulator, the processed-log mapping and the summary mapping. -/
structure RunSt where
  zips : Zips
  log : List (String × List String)
  summary : List (String × (Nat × Nat × Nat))
deriving DecidableEq, Repr

/-- The domain loop (main.py lines 231 to 362) with its iteration index:
the circuit breaker stops the whole loop when the repository size has
reached the ceiling; a failed list fetch or an empty window skips to the
next domain; otherwise the URL loop runs, the summary entry is recorded,
and the history of the domain is updated when some URL succeeded. -/
def domainLoop (env : GenEnv) (cfg : GenCfg) :
    List (String × List PyRule) → Nat → RunSt → RunSt
  | [], _, st => st
  | (d, rules) :: rest, i, st =>
      if maxRepoSizeMB ≤ env.repoSizeMB i then st
      else
        let sorted := sortRules rules
        match env.fetchList d with
        | none => domainLoop env cfg rest (i + 1) st
        | some allUrls =>
            let hist := dictGetD st.log d []
            let window := computeWindow allUrls hist cfg.maxUrls
            if window = [] then domainLoop env cfg rest (i + 1) st
            else
              let dst := urlLoop env cfg sorted window
                ⟨[], st.zips, 0, 0, []⟩
              let log1 :=
                if dst.success = [] then st.log
                else dictSet st.log d
                  (updateHistory dst.success (dictGetD st.log d []) cfg.histKeep)
              domainLoop env cfg rest (i + 1)
                { zips := dst.zips
                  log := log1
                  summary := dictSet st.summary d
                    (dst.processed, dst.skipped, window.length) }

/-- The observable outcome of one run: the archives written at the end
(name and entries, main.py lines 364 to 373), the saved processed log and
the written summary. -/
structure RunOut where
  archives : List (String × List (String × Nat))
  log : List (String × List String)
  summary : List (String × (Nat × Nat × Nat))
deriving DecidableEq, Repr

/-- The zip naming of main.py line 368. -/
def zipName (env : GenEnv) (name : String) (count : Nat) : String :=
  name ++ "." ++ env.timeStamp ++ "_" ++ toString count ++ "_images.zip"

/-- main (main.py lines 198 to 378) from the loaded config, the loaded
processed log and the external world: run the domain loop, then emit one
archive per nonempty mockup-set group and save log and summary. -/
def runMain (cfg : GenCfg) (env : GenEnv)
    (initLog : List (String × List String)) : RunOut :=
  let st := domainLoop env cfg cfg.domains 0 ⟨[], initLog, []⟩
  { archives := st.zips.filterMap
      (fun g => if g.2 = [] then none else some (zipName env g.1 g.2.length, g.2))
    log := st.log
    summary := st.summary }

/-- A 2 by 1 test design: a white seed pixel at (0,0) and an opaque black
pixel at (1,0). -/
def designPx : Nat → Nat → RGBA :=
  fun x _ => if x = 0 then ⟨255, 255, 255, 255⟩ else ⟨0, 0, 0, 255⟩

/-- The concrete design image used by the end-to-end evaluation. -/
def designImg : Img := ⟨"RGBA", 2, 1, designPx⟩

/-- A white 100 by 100 mockup base. -/
def whiteMock : Img := ⟨"RGBA", 100, 100, fun _ _ => ⟨255, 255, 255, 255⟩⟩

/-- A dark 100 by 100 mockup base. -/
def blackMock : Img := ⟨"RGBA", 100, 100, fun _ _ => ⟨30, 30, 30, 255⟩⟩

/-- The rule of the end-to-end scenario: matches every fetched filename,
does not skip, has crop coordinates covering the 2 by 1 design and sends
the result to mockup set A. -/
def bugRule : PyRule :=
  ⟨"x", none, some ⟨0, 0, 2, 1⟩, false, false, ["A"]⟩

/-- The mockup-set A of the end-to-end scenario, with both base variants
and a placement rectangle. -/
def bugMockupSet : MockupSetCfg :=
  ⟨some "wurl", some "burl", some ⟨0, 0, 100, 100⟩, none, "", ""⟩

/-- The configuration of the end-to-end scenario of the claim: one domain
with max_urls_per_domain = 2 and one matching non-skip rule into A. -/
def bugCfg : GenCfg :=
  { maxUrls := 2, histKeep := 10,
    domains := [("d.com", [bugRule])],
    mockupSets := [("A", bugMockupSet)] }

/-- The external world of the end-to-end scenario: the domain list fetch
yields exactly two URLs, every download succeeds, the repository is far
below the ceiling, and the remaining oracles are inert. -/
def bugEnv : GenEnv :=
  { fetchList := fun d =>
      if d = "d.com" then some ["http://s/x1.jpg", "http://s/x2.jpg"] else none
    download := fun u =>
      if u = "http://s/x1.jpg" ∨ u = "http://s/x2.jpg" then some designImg
      else if u = "wurl" then some whiteMock
      else if u = "burl" then some blackMock
      else none
    repoSizeMB := fun _ => 0
    resizePx := fun _ _ _ _ _ => zeroPix
    pastePx := fun _ _ _ _ _ _ => zeroPix
    textPx := fun _ _ _ _ => zeroPix
    encodeJpeg := fun _ => 7
    cleanTitle := fun s => s
    timeStamp := "20250101_000000" }

/-- A domain with no rules and one fetched URL, for counter witnesses. -/
def c10Cfg : GenCfg :=
  { maxUrls := 5, histKeep := 10, domains := [("e", [])], mockupSets := [] }

/-- Environment for the counter witness: one URL is fetched and matched by
no rule, so it is counted skipped. -/
def c10Env : GenEnv :=
  { fetchList := fun d => if d = "e" then some ["u1"] else none
    download := fun _ => none
    repoSizeMB := fun _ => 0
    resizePx := fun _ _ _ _ _ => zeroPix
    pastePx := fun _ _ _ _ _ _ => zeroPix
    textPx := fun _ _ _ _ => zeroPix
    encodeJpeg := fun _ => 0
    cleanTitle := fun s => s
    timeStamp := "t" }

/-- Two domains for the circuit-breaker witness. -/
def c9Cfg : GenCfg :=
  { maxUrls := 5, histKeep := 10,
    domains := [("a", []), ("b", [])], mockupSets := [] }

/-- Environment for the circuit-breaker witness: the size scan is below
the ceiling before the first domain and above it before the second. -/
def c9Env : GenEnv :=
  { fetchList := fun _ => none
    download := fun _ => none
    repoSizeMB := fun i => if i = 0 then 100 else 950
    resizePx := fun _ _ _ _ _ => zeroPix
    pastePx := fun _ _ _ _ _ _ => zeroPix
    textPx := fun _ _ _ _ => zeroPix
    encodeJpeg := fun _ => 0
    cleanTitle := fun s => s
    timeStamp := "t" }

/-- A rule whose crop coordinates lie outside the downloaded image, so the
brightness sample raises IndexError inside the try block. -/
def c8Rule : PyRule :=
  ⟨"u", none, some ⟨5, 5, 1, 1⟩, false, false, []⟩

/-- Configuration for the fault-isolation witness. -/
def c8Cfg : GenCfg :=
  { maxUrls := 5, histKeep := 10,
    domains := [("f", [c8Rule])], mockupSets := [] }

/-- Environment for the fault-isolation witness: the URL downloads to a
1 by 1 image, which the out-of-bounds sample turns into a raise. -/
def c8Env : GenEnv :=
  { fetchList := fun d => if d = "f" then some ["u1"] else none
    download := fun u =>
      if u = "u1" then some ⟨"RGBA", 1, 1, fun _ _ => ⟨9, 9, 9, 255⟩⟩ else none
    repoSizeMB := fun _ => 0
    resizePx := fun _ _ _ _ _ => zeroPix
    pastePx := fun _ _ _ _ _ _ => zeroPix
    textPx := fun _ _ _ _ => zeroPix
    encodeJpeg := fun _ => 0
    cleanTitle := fun s => s
    timeStamp := "t" }

/-- A rule with the pattern front (rule-matching example). -/
def ruleFront : PyRule := ⟨"front", none, none, false, false, []⟩

/-- A rule with the longer pattern front-view (rule-matching example). -/
def ruleFrontView : PyRule := ⟨"front-view", none, none, false, false, []⟩

/-- The two-rule list of the rule-matching example, shorter pattern
first. -/
def exampleRules : List PyRule := [ruleFront, ruleFrontView]

/-- A fully transparent 2 by 2 image (trim witness). -/
def transparentImg : Img := ⟨"RGBA", 2, 2, fun _ _ => ⟨5, 5, 5, 0⟩⟩

/-- Postcondition of the flood-fill loop: the returned cleared set is the
match-filter of a final visited set V inside the grid, the seed has been
visited, and every in-grid neighbour of a cleared point has been visited;
together with soundness this pins the cleared set to the reachable set. -/
def floodPost (img : Img) (C : Finset (Int × Int)) : Prop :=
  ∃ V : Finset (Int × Int),
    V ⊆ gridF img.w img.h
    ∧ C = V.filter (fun p => matchSeed (img.pxZ (0, 0)) (img.pxZ p) = true)
    ∧ (inGridZ img.w img.h (0, 0) → (0, 0) ∈ V)
    ∧ (∀ p ∈ C, ∀ q ∈ neighborsZ p, inGridZ img.w img.h q → q ∈ V)
    ∧ (∀ p ∈ C, ReachSeed img p)

/-! Lemmas about the window computation. -/

theorem computeWindowAux_pfx (hist : List String) (maxN : Nat) :
    ∀ (l : List String) (i : Nat), ∃ t, computeWindowAux hist maxN l i ++ t = l := by
  intro l
  induction l with
  | nil => intro i; exact ⟨[], rfl⟩
  | cons u rest ih =>
      intro i
      unfold computeWindowAux
      by_cases h1 : u ∈ hist
      · simp [h1]
      · by_cases h2 : maxN ≤ i
        · simp [h1, h2]
        · obtain ⟨t, ht⟩ := ih (i + 1)
          exact ⟨t, by simp [h1, h2, ht]⟩

theorem computeWindowAux_notin (hist : List String) (maxN : Nat) :
    ∀ (l : List String) (i : Nat) (u : String),
      u ∈ computeWindowAux hist maxN l i → u ∉ hist := by
  intro l
  induction l with
  | nil => intro i u hu; simp [computeWindowAux] at hu
  | cons v rest ih =>
      intro i u hu
      unfold computeWindowAux at hu
      by_cases h1 : v ∈ hist
      · simp [h1] at hu
      · by_cases h2 : maxN ≤ i
        · simp [h1, h2] at hu
        · simp only [h1, h2, if_neg, if_false, List.mem_cons] at hu
          rcases hu with rfl | hu
          · simpa using h1
          · exact ih (i + 1) u hu

theorem computeWindowAux_len (hist : List String) (maxN : Nat) :
    ∀ (l : List String) (i : Nat),
      (computeWindowAux hist maxN l i).length ≤ maxN - i := by
  intro l
  induction l with
  | nil => intro i; simp [computeWindowAux]
  | cons v rest ih =>
      intro i
      unfold computeWindowAux
      by_cases h1 : v ∈ hist
      · simp [h1]
      · by_cases h2 : maxN ≤ i
        · simp [h1, h2]
        · have := ih (i + 1)
          simp only [h1, h2, if_neg, if_false, List.length_cons]
          omega

theorem computeWindowAux_max (hist : List String) (maxN : Nat) :
    ∀ (p l : List String) (i : Nat),
      (∃ t, p ++ t = l) → (∀ u ∈ p, u ∉ hist) → p.length + i ≤ maxN →
      p.length ≤ (computeWindowAux hist maxN l i).length := by
  intro p
  induction p with
  | nil => intro l i _ _ _; simp
  | cons u p' ih =>
      intro l i hpfx hnin hlen
      obtain ⟨t, ht⟩ := hpfx
      subst ht
      have hu : u ∉ hist := hnin u (by simp)
      have hi : ¬ maxN ≤ i := by
        have := hlen; simp only [List.length_cons] at this; omega
      rw [show (u :: p') ++ t = u :: (p' ++ t) from rfl, computeWindowAux,
        if_neg hu, if_neg hi]
      simp only [List.length_cons]
      have := ih (p' ++ t) (i + 1) ⟨t, rfl⟩
        (fun v hv => hnin v (by simp [hv]))
        (by simp only [List.length_cons] at hlen; omega)
      omega

/-- Claim C3: the processing window is the longest prefix of the fetched
list containing no URL of the stored history and of length at most
max_urls_per_domain, in original order; in particular for the fetched
list u1..u5 and history [u3, u9] the window is [u1, u2]. -/
theorem claim_C3 (allUrls hist : List String) (maxN : Nat) :
    listPfx (computeWindow allUrls hist maxN) allUrls
    ∧ (∀ u ∈ computeWindow allUrls hist maxN, u ∉ hist)
    ∧ (computeWindow allUrls hist maxN).length ≤ maxN
    ∧ (∀ p, listPfx p allUrls → (∀ u ∈ p, u ∉ hist) → p.length ≤ maxN →
        p.length ≤ (computeWindow allUrls hist maxN).length)
    ∧ computeWindow ["u1", "u2", "u3", "u4", "u5"] ["u3", "u9"] 200
        = ["u1", "u2"] := by
  refine ⟨computeWindowAux_pfx hist maxN allUrls 0,
    fun u hu => computeWindowAux_notin hist maxN allUrls 0 u hu,
    by simpa using computeWindowAux_len hist maxN allUrls 0,
    fun p hp hn hl =>
      computeWindowAux_max hist maxN p allUrls 0 hp hn (by omega),
    by decide⟩

/-- Witness for claim C3 at the concrete example of the claim. -/
theorem claim_C3_witness :
    computeWindow ["u1", "u2", "u3", "u4", "u5"] ["u3", "u9"] 200 = ["u1", "u2"]
    ∧ (["u1"] : List String).length
        ≤ (computeWindow ["u1", "u2", "u3", "u4", "u5"] ["u3", "u9"] 200).length := by
  refine ⟨(claim_C3 ["u1", "u2", "u3", "u4", "u5"] ["u3", "u9"] 200).2.2.2.2, ?_⟩
  exact (claim_C3 ["u1", "u2", "u3", "u4", "u5"] ["u3", "u9"] 200).2.2.2.1
    ["u1"] ⟨["u2", "u3", "u4", "u5"], rfl⟩ (by decide) (by decide)

/-- Claim C4: after a history update the stored list has length at most
history_to_keep, the URLs processed this run occupy the front in
processing order, and the previously stored URLs follow them. -/
theorem claim_C4 (success old : List String) (keep : Nat) :
    (updateHistory success old keep).length ≤ keep
    ∧ (∀ i, i < min keep success.length →
        (updateHistory success old keep)[i]? = success[i]?)
    ∧ (∀ i, success.length ≤ i → i < keep →
        (updateHistory success old keep)[i]? = old[i - success.length]?) := by
  refine ⟨List.length_take_le keep _, ?_, ?_⟩
  · intro i hi
    have h1 : i < keep := lt_of_lt_of_le hi (min_le_left _ _)
    have h2 : i < success.length := lt_of_lt_of_le hi (min_le_right _ _)
    rw [updateHistory, List.getElem?_take_of_lt h1, List.getElem?_append_left h2]
  · intro i h1 h2
    rw [updateHistory, List.getElem?_take_of_lt h2, List.getElem?_append_right h1]

/-- Witness for claim C4 at a concrete update. -/
theorem claim_C4_witness :
    (updateHistory ["a", "b"] ["c"] 10).length ≤ 10
    ∧ (updateHistory ["a", "b"] ["c"] 10)[0]? = (["a", "b"] : List String)[0]?
    ∧ (updateHistory ["a", "b"] ["c"] 10)[2]? = (["c"] : List String)[0]? :=
  ⟨(claim_C4 ["a", "b"] ["c"] 10).1,
   (claim_C4 ["a", "b"] ["c"] 10).2.1 0 (by decide),
   (claim_C4 ["a", "b"] ["c"] 10).2.2 2 (by decide) (by decide)⟩

/-! Lemmas about rule sorting and selection. -/

theorem mem_insertRule (r b : PyRule) :
    ∀ s, b ∈ insertRule r s ↔ b = r ∨ b ∈ s := by
  intro s
  induction s with
  | nil => simp [insertRule]
  | cons a as ih =>
      unfold insertRule
      by_cases h : a.pattern.length ≤ r.pattern.length
      · rw [if_pos h]
        simp only [List.mem_cons]
      · rw [if_neg h]
        simp only [List.mem_cons, ih]
        tauto

theorem mem_sortRules (b : PyRule) : ∀ l, b ∈ sortRules l ↔ b ∈ l := by
  intro l
  induction l with
  | nil => simp [sortRules]
  | cons a as ih => simp [sortRules, mem_insertRule, ih]

theorem insertRule_pairwise (r : PyRule) :
    ∀ s, s.Pairwise (fun a b => b.pattern.length ≤ a.pattern.length) →
      (insertRule r s).Pairwise (fun a b => b.pattern.length ≤ a.pattern.length) := by
  intro s
  induction s with
  | nil => intro _; simp [insertRule]
  | cons a as ih =>
      intro hp
      rw [List.pairwise_cons] at hp
      obtain ⟨ha, hp'⟩ := hp
      unfold insertRule
      by_cases h : a.pattern.length ≤ r.pattern.length
      · simp only [h, if_pos]
        refine List.Pairwise.cons ?_ (List.Pairwise.cons ha hp')
        intro b hb
        rcases List.mem_cons.mp hb with rfl | hb
        · exact h
        · exact le_trans (ha b hb) h
      · simp only [h, if_neg, if_false]
        refine List.Pairwise.cons ?_ (ih hp')
        intro b hb
        rcases (mem_insertRule r b as).mp hb with rfl | hb
        · omega
        · exact ha b hb

theorem sortRules_pairwise :
    ∀ l, (sortRules l).Pairwise (fun a b => b.pattern.length ≤ a.pattern.length) := by
  intro l
  induction l with
  | nil => simp [sortRules]
  | cons a as ih => exact insertRule_pairwise a (sortRules as) ih

theorem find?_insertRule_neg (m : PyRule → Bool) (r : PyRule)
    (hm : m r = false) :
    ∀ s, (insertRule r s).find? m = s.find? m := by
  intro s
  induction s with
  | nil => simp [insertRule, List.find?, hm]
  | cons a as ih =>
      unfold insertRule
      by_cases h : a.pattern.length ≤ r.pattern.length
      · simp [h, List.find?, hm]
      · by_cases hma : m a
        · simp [h, List.find?, hma]
        · simp only [h, if_neg, if_false, List.find?, hma, Bool.false_eq_true]
          exact ih

theorem find?_insertRule_pos (m : PyRule → Bool) (r : PyRule)
    (hm : m r = true) :
    ∀ s, s.Pairwise (fun a b => b.pattern.length ≤ a.pattern.length) →
      (insertRule r s).find? m =
        match s.find? m with
        | some b =>
            if r.pattern.length < b.pattern.length then some b else some r
        | none => some r := by
  intro s
  induction s with
  | nil => simp [insertRule, List.find?, hm]
  | cons a as ih =>
      intro hp
      rw [List.pairwise_cons] at hp
      obtain ⟨ha, hp'⟩ := hp
      unfold insertRule
      by_cases h : a.pattern.length ≤ r.pattern.length
      · simp only [h, if_pos, List.find?, hm]
        by_cases hma : m a
        · simp only [List.find?, hma]
          have : ¬ r.pattern.length < a.pattern.length := by omega
          simp [this]
        · simp only [List.find?, hma, Bool.false_eq_true, if_false]
          cases hfb : as.find? m with
          | none => simp
          | some b =>
              have hb : b ∈ as := List.mem_of_find?_eq_some hfb
              have : ¬ r.pattern.length < b.pattern.length := by
                have := ha b hb; omega
              simp [this]
      · simp only [h, if_neg, if_false]
        by_cases hma : m a
        · simp only [List.find?, hma]
          have : r.pattern.length < a.pattern.length := by omega
          simp [List.find?, hma, this]
        · simp only [List.find?, hma, Bool.false_eq_true, if_false]
          exact ih hp'

theorem find?_sortRules_eq_findBest (fn : String) :
    ∀ l, (sortRules l).find? (fun r => substrB r.pattern fn) = findBest fn l := by
  intro l
  induction l with
  | nil => rfl
  | cons r rest ih =>
      show (insertRule r (sortRules rest)).find? _ = _
      by_cases hm : substrB r.pattern fn
      · rw [find?_insertRule_pos _ r (by simpa using hm) _
          (sortRules_pairwise rest), ih]
        conv_rhs => rw [findBest]
        rw [if_pos hm]
      · rw [find?_insertRule_neg _ r (by simpa using hm), ih]
        conv_rhs => rw [findBest]
        rw [if_neg hm]

/-- Claim C5: rule selection is the first match of the stable
descending-length sort, equivalently the longest matching pattern with
ties broken by original order; no selection happens exactly when no
pattern is a substring of the filename; and the front-view rule wins the
example. -/
theorem claim_C5 (rules : List PyRule) (fn : String) :
    findRule rules fn = findBest fn rules
    ∧ (findRule rules fn = none ↔ ∀ r ∈ rules, substrB r.pattern fn = false)
    ∧ findRule exampleRules "image-front-view-01.jpg" = some ruleFrontView := by
  refine ⟨find?_sortRules_eq_findBest fn rules, ?_, by decide⟩
  rw [findRule, List.find?_eq_none]
  constructor
  · intro h r hr
    have := h r ((mem_sortRules r rules).mpr hr)
    simpa using this
  · intro h r hr
    have := h r ((mem_sortRules r rules).mp hr)
    simp [this]

/-- Witness for claim C5: the example selection, and the none case on a
rule list with no matching pattern. -/
theorem claim_C5_witness :
    findRule exampleRules "image-front-view-01.jpg" = some ruleFrontView
    ∧ findRule exampleRules "zzz" = none :=
  ⟨(claim_C5 [] "z").2.2,
   (claim_C5 exampleRules "zzz").2.1.mpr (by decide)⟩

/-! Lemmas about the scale-and-paste geometry. -/

theorem pyInt_natCast_div (n d : Nat) :
    pyInt ((n : ℚ) / (d : ℚ)) = ((n / d : Nat) : Int) := by
  have h0 : (0 : ℚ) ≤ (n : ℚ) / (d : ℚ) := by positivity
  rw [pyInt, if_pos h0]
  have h1 : ⌊((n : ℚ) / (d : ℚ))⌋ = ((⌊((n : ℚ) / (d : ℚ))⌋₊ : Nat) : Int) := by
    rw [← Int.floor_toNat]
    exact (Int.toNat_of_nonneg (Int.floor_nonneg.mpr h0)).symm
  rw [h1, Nat.floor_div_nat, Nat.floor_natCast]

theorem mkRat_natCast_div (n d : Nat) :
    mkRat (n : Int) d = (n : ℚ) / (d : ℚ) := by
  rw [Rat.mkRat_eq_div]
  push_cast
  ring

theorem natMul_div_as_rat (a b c : Nat) :
    (a : ℚ) * ((b : ℚ) / (c : ℚ)) = ((a * b : Nat) : ℚ) / ((c : Nat) : ℚ) := by
  push_cast
  ring

/-- Claim C7: the scale factor is min(w/dw, h/dh), the resized design has
the truncated size (int(dw scale), int(dh scale)), the paste position is
horizontally centred at x + (w - finalW) // 2 and vertically at y + 20;
in particular a 100 by 50 design in a 200 by 200 rectangle is scaled by
2 to 200 by 100. -/
theorem claim_C7 (dw dh : Nat) (mc : Coords) (hdw : 0 < dw) (hdh : 0 < dh) :
    (pasteGeometry dw dh mc).scale
        = min ((mc.w : ℚ) / (dw : ℚ)) ((mc.h : ℚ) / (dh : ℚ))
    ∧ (pasteGeometry dw dh mc).finalW
        = (pyInt ((dw : ℚ) * (pasteGeometry dw dh mc).scale)).toNat
    ∧ (pasteGeometry dw dh mc).finalH
        = (pyInt ((dh : ℚ) * (pasteGeometry dw dh mc).scale)).toNat
    ∧ 0 ≤ pyInt ((dw : ℚ) * (pasteGeometry dw dh mc).scale)
    ∧ (pasteGeometry dw dh mc).finalX
        = mc.x + Int.fdiv ((mc.w : Int) - ((pasteGeometry dw dh mc).finalW : Int)) 2
    ∧ (pasteGeometry dw dh mc).finalY = mc.y + 20
    ∧ (pasteGeometry 100 50 ⟨0, 0, 200, 200⟩).scale = 2
    ∧ (pasteGeometry 100 50 ⟨0, 0, 200, 200⟩).finalW = 200
    ∧ (pasteGeometry 100 50 ⟨0, 0, 200, 200⟩).finalH = 100 := by
  have hdw' : (0 : ℚ) < (dw : ℚ) := by exact_mod_cast hdw
  have hdh' : (0 : ℚ) < (dh : ℚ) := by exact_mod_cast hdh
  have hscale : (pasteGeometry dw dh mc).scale
      = if mc.w * dh ≤ mc.h * dw then mkRat (mc.w : Int) dw
        else mkRat (mc.h : Int) dh := rfl
  have hfw : (pasteGeometry dw dh mc).finalW
      = if mc.w * dh ≤ mc.h * dw then (dw * mc.w) / dw else (dw * mc.h) / dh := rfl
  have hfh : (pasteGeometry dw dh mc).finalH
      = if mc.w * dh ≤ mc.h * dw then (dh * mc.w) / dw else (dh * mc.h) / dh := rfl
  by_cases hmin : mc.w * dh ≤ mc.h * dw
  · have hle : (mc.w : ℚ) / (dw : ℚ) ≤ (mc.h : ℚ) / (dh : ℚ) := by
      rw [div_le_div_iff₀ hdw' hdh']
      exact_mod_cast hmin
    have hs : (pasteGeometry dw dh mc).scale = (mc.w : ℚ) / (dw : ℚ) := by
      rw [hscale, if_pos hmin, mkRat_natCast_div]
    refine ⟨by rw [hs, min_eq_left hle], ?_, ?_, ?_, rfl, rfl,
      by decide, by decide, by decide⟩
    · rw [hs, hfw, if_pos hmin, natMul_div_as_rat, pyInt_natCast_div,
        Int.toNat_natCast]
    · rw [hs, hfh, if_pos hmin, natMul_div_as_rat, pyInt_natCast_div,
        Int.toNat_natCast]
    · rw [hs, natMul_div_as_rat, pyInt_natCast_div]
      exact Int.natCast_nonneg _
  · have hlt : (mc.h : ℚ) / (dh : ℚ) ≤ (mc.w : ℚ) / (dw : ℚ) := by
      rw [div_le_div_iff₀ hdh' hdw']
      have : mc.h * dw ≤ mc.w * dh := le_of_not_le hmin
      exact_mod_cast this
    have hs : (pasteGeometry dw dh mc).scale = (mc.h : ℚ) / (dh : ℚ) := by
      rw [hscale, if_neg hmin, mkRat_natCast_div]
    refine ⟨by rw [hs, min_eq_right hlt], ?_, ?_, ?_, rfl, rfl,
      by decide, by decide, by decide⟩
    · rw [hs, hfw, if_neg hmin, natMul_div_as_rat, pyInt_natCast_div,
        Int.toNat_natCast]
    · rw [hs, hfh, if_neg hmin, natMul_div_as_rat, pyInt_natCast_div,
        Int.toNat_natCast]
    · rw [hs, natMul_div_as_rat, pyInt_natCast_div]
      exact Int.natCast_nonneg _

/-- Witness for claim C7 at the 100 by 50 design and 200 by 200 target of
the claim. -/
theorem claim_C7_witness :
    (pasteGeometry 100 50 ⟨0, 0, 200, 200⟩).scale = 2
    ∧ (pasteGeometry 100 50 ⟨0, 0, 200, 200⟩).finalW = 200
    ∧ (pasteGeometry 100 50 ⟨0, 0, 200, 200⟩).finalH = 100 :=
  ⟨(claim_C7 100 50 ⟨0, 0, 200, 200⟩ (by decide) (by decide)).2.2.2.2.2.2.1,
   (claim_C7 100 50 ⟨0, 0, 200, 200⟩ (by decide) (by decide)).2.2.2.2.2.2.2.1,
   (claim_C7 100 50 ⟨0, 0, 200, 200⟩ (by decide) (by decide)).2.2.2.2.2.2.2.2⟩

/-! Lemmas about the bounding box and the trim operation. -/

theorem mem_catLists {α : Type} (a : α) :
    ∀ ls : List (List α), a ∈ catLists ls ↔ ∃ l ∈ ls, a ∈ l := by
  intro ls
  induction ls with
  | nil => simp [catLists]
  | cons l rest ih => simp [catLists, ih]

theorem mem_rowPoints (img : Img) (y : Nat) (p : Nat × Nat) :
    p ∈ rowPoints img y ↔
      p.1 < img.w ∧ (img.px p.1 y).a ≠ 0 ∧ p.2 = y := by
  obtain ⟨px, py⟩ := p
  simp only [rowPoints, List.mem_filterMap, List.mem_range]
  constructor
  · rintro ⟨x, hx, hsome⟩
    by_cases ha : (img.px x y).a ≠ 0
    · rw [if_pos ha] at hsome
      injection hsome with h
      injection h with h1 h2
      subst h1; subst h2
      exact ⟨hx, ha, rfl⟩
    · rw [if_neg ha] at hsome
      exact absurd hsome (by simp)
  · rintro ⟨hx, ha, rfl⟩
    exact ⟨px, hx, by rw [if_pos ha]⟩

theorem mem_alphaPoints (img : Img) (p : Nat × Nat) :
    p ∈ alphaPoints img ↔
      p.1 < img.w ∧ p.2 < img.h ∧ (img.px p.1 p.2).a ≠ 0 := by
  simp only [alphaPoints, mem_catLists, List.mem_map, List.mem_range]
  constructor
  · rintro ⟨l, ⟨y, hy, rfl⟩, hp⟩
    have := (mem_rowPoints img y p).mp hp
    refine ⟨this.1, ?_, ?_⟩
    · rw [this.2.2]; exact hy
    · rw [this.2.2]; exact this.2.1
  · rintro ⟨h1, h2, h3⟩
    exact ⟨rowPoints img p.2, ⟨p.2, h2, rfl⟩,
      (mem_rowPoints img p.2 p).mpr ⟨h1, h3, rfl⟩⟩

theorem bboxFold_le :
    ∀ (l : List (Nat × Nat)) (a b c d : Nat),
      (bboxFold l (a, b, c, d)).1 ≤ a
      ∧ (bboxFold l (a, b, c, d)).2.1 ≤ b
      ∧ c ≤ (bboxFold l (a, b, c, d)).2.2.1
      ∧ d ≤ (bboxFold l (a, b, c, d)).2.2.2 := by
  intro l
  induction l with
  | nil => intro a b c d; simp [bboxFold]
  | cons q rest ih =>
      intro a b c d
      obtain ⟨qx, qy⟩ := q
      simp only [bboxFold]
      obtain ⟨h1, h2, h3, h4⟩ := ih (min a qx) (min b qy) (max c qx) (max d qy)
      exact ⟨le_trans h1 (min_le_left _ _), le_trans h2 (min_le_left _ _),
        le_trans (le_max_left _ _) h3, le_trans (le_max_left _ _) h4⟩

theorem bboxFold_bound :
    ∀ (l : List (Nat × Nat)) (a b c d : Nat), ∀ p ∈ l,
      (bboxFold l (a, b, c, d)).1 ≤ p.1
      ∧ (bboxFold l (a, b, c, d)).2.1 ≤ p.2
      ∧ p.1 ≤ (bboxFold l (a, b, c, d)).2.2.1
      ∧ p.2 ≤ (bboxFold l (a, b, c, d)).2.2.2 := by
  intro l
  induction l with
  | nil => intro a b c d p hp; simp at hp
  | cons q rest ih =>
      intro a b c d p hp
      obtain ⟨qx, qy⟩ := q
      simp only [bboxFold]
      rcases List.mem_cons.mp hp with rfl | hp
      · obtain ⟨h1, h2, h3, h4⟩ := bboxFold_le rest (min a qx) (min b qy)
          (max c qx) (max d qy)
        exact ⟨le_trans h1 (min_le_right _ _), le_trans h2 (min_le_right _ _),
          le_trans (le_max_right _ _) h3, le_trans (le_max_right _ _) h4⟩
      · exact ih (min a qx) (min b qy) (max c qx) (max d qy) p hp

theorem bboxFold_attain :
    ∀ (l : List (Nat × Nat)) (a b c d : Nat),
      ((bboxFold l (a, b, c, d)).1 = a ∨ ∃ p ∈ l, (bboxFold l (a, b, c, d)).1 = p.1)
      ∧ ((bboxFold l (a, b, c, d)).2.1 = b ∨ ∃ p ∈ l, (bboxFold l (a, b, c, d)).2.1 = p.2)
      ∧ ((bboxFold l (a, b, c, d)).2.2.1 = c ∨ ∃ p ∈ l, (bboxFold l (a, b, c, d)).2.2.1 = p.1)
      ∧ ((bboxFold l (a, b, c, d)).2.2.2 = d ∨ ∃ p ∈ l, (bboxFold l (a, b, c, d)).2.2.2 = p.2) := by
  intro l
  induction l with
  | nil => intro a b c d; simp [bboxFold]
  | cons q rest ih =>
      intro a b c d
      obtain ⟨qx, qy⟩ := q
      simp only [bboxFold]
      obtain ⟨h1, h2, h3, h4⟩ := ih (min a qx) (min b qy) (max c qx) (max d qy)
      refine ⟨?_, ?_, ?_, ?_⟩
      · rcases h1 with h1 | ⟨p, hp, hpe⟩
        · rcases min_choice a qx with hm | hm
          · left; rw [h1, hm]
          · right; exact ⟨(qx, qy), by simp, by rw [h1, hm]⟩
        · right; exact ⟨p, by simp [hp], hpe⟩
      · rcases h2 with h2 | ⟨p, hp, hpe⟩
        · rcases min_choice b qy with hm | hm
          · left; rw [h2, hm]
          · right; exact ⟨(qx, qy), by simp, by rw [h2, hm]⟩
        · right; exact ⟨p, by simp [hp], hpe⟩
      · rcases h3 with h3 | ⟨p, hp, hpe⟩
        · rcases max_choice c qx with hm | hm
          · left; rw [h3, hm]
          · right; exact ⟨(qx, qy), by simp, by rw [h3, hm]⟩
        · right; exact ⟨p, by simp [hp], hpe⟩
      · rcases h4 with h4 | ⟨p, hp, hpe⟩
        · rcases max_choice d qy with hm | hm
          · left; rw [h4, hm]
          · right; exact ⟨(qx, qy), by simp, by rw [h4, hm]⟩
        · right; exact ⟨p, by simp [hp], hpe⟩

theorem getbbox_some_spec (img : Img) (x1 y1 x2 y2 : Nat)
    (hbb : getbbox img = some (x1, y1, x2, y2)) :
    (∀ p ∈ alphaPoints img, x1 ≤ p.1 ∧ p.1 < x2 ∧ y1 ≤ p.2 ∧ p.2 < y2)
    ∧ (∃ p ∈ alphaPoints img, p.1 = x1)
    ∧ (∃ p ∈ alphaPoints img, p.2 = y1)
    ∧ (∃ p ∈ alphaPoints img, p.1 + 1 = x2)
    ∧ (∃ p ∈ alphaPoints img, p.2 + 1 = y2) := by
  unfold getbbox at hbb
  cases halpha : alphaPoints img with
  | nil => rw [halpha] at hbb; exact absurd hbb (by simp)
  | cons q rest =>
      rw [halpha] at hbb
      obtain ⟨qx, qy⟩ := q
      simp only [Option.some_inj] at hbb
      obtain ⟨he1, he2, he3, he4⟩ : (bboxFold rest (qx, qy, qx, qy)).1 = x1
          ∧ (bboxFold rest (qx, qy, qx, qy)).2.1 = y1
          ∧ (bboxFold rest (qx, qy, qx, qy)).2.2.1 + 1 = x2
          ∧ (bboxFold rest (qx, qy, qx, qy)).2.2.2 + 1 = y2 := by
        injection hbb with a hbb
        injection hbb with b hbb
        injection hbb with c d
        exact ⟨a, b, c, d⟩
      constructor
      · intro p hp
        rcases List.mem_cons.mp hp with rfl | hp
        · obtain ⟨h1, h2, h3, h4⟩ := bboxFold_le rest qx qy qx qy
          omega
        · obtain ⟨h1, h2, h3, h4⟩ := bboxFold_bound rest qx qy qx qy p hp
          omega
      · obtain ⟨h1, h2, h3, h4⟩ := bboxFold_attain rest qx qy qx qy
        refine ⟨?_, ?_, ?_, ?_⟩
        · rcases h1 with h1 | ⟨p, hp, hpe⟩
          · exact ⟨(qx, qy), by simp, by omega⟩
          · exact ⟨p, by simp [hp], by omega⟩
        · rcases h2 with h2 | ⟨p, hp, hpe⟩
          · exact ⟨(qx, qy), by simp, by omega⟩
          · exact ⟨p, by simp [hp], by omega⟩
        · rcases h3 with h3 | ⟨p, hp, hpe⟩
          · exact ⟨(qx, qy), by simp, by omega⟩
          · exact ⟨p, by simp [hp], by omega⟩
        · rcases h4 with h4 | ⟨p, hp, hpe⟩
          · exact ⟨(qx, qy), by simp, by omega⟩
          · exact ⟨p, by simp [hp], by omega⟩

/-- Claim C6: trimming returns nothing exactly when no pixel is other
than fully transparent; otherwise the result is the crop of the bounding
box of the non-fully-transparent pixels expanded by 40 horizontally and
20 vertically and clamped to the image bounds. -/
theorem claim_C6 (img : Img) :
    (getTrimmedImageWithPadding img 40 20 = none ↔
      ∀ x, x < img.w → ∀ y, y < img.h → (img.px x y).a = 0)
    ∧ (∀ res, getTrimmedImageWithPadding img 40 20 = some res →
        ∃ x1 y1 x2 y2,
          (∀ x y, x < img.w → y < img.h → (img.px x y).a ≠ 0 →
            x1 ≤ x ∧ x < x2 ∧ y1 ≤ y ∧ y < y2)
          ∧ (∃ y, y < img.h ∧ (img.px x1 y).a ≠ 0)
          ∧ (∃ x, x < img.w ∧ (img.px x y1).a ≠ 0)
          ∧ (∃ y, y < img.h ∧ (img.px (x2 - 1) y).a ≠ 0)
          ∧ (∃ x, x < img.w ∧ (img.px x (y2 - 1)).a ≠ 0)
          ∧ res = cropImg img ((x1 - 40 : Nat) : Int) ((y1 - 20 : Nat) : Int)
              ((min img.w (x2 + 40) : Nat) : Int)
              ((min img.h (y2 + 20) : Nat) : Int)) := by
  constructor
  · constructor
    · intro hnone x hx y hy
      by_contra ha
      cases hbb : getbbox img with
      | none =>
          unfold getbbox at hbb
          cases halpha : alphaPoints img with
          | nil =>
              have : (x, y) ∈ alphaPoints img :=
                (mem_alphaPoints img (x, y)).mpr ⟨hx, hy, ha⟩
              rw [halpha] at this
              simp at this
          | cons q rest => rw [halpha] at hbb; simp at hbb
      | some b =>
          rw [getTrimmedImageWithPadding, hbb] at hnone
          obtain ⟨b1, b2, b3, b4⟩ := b
          simp at hnone
    · intro hall
      rw [getTrimmedImageWithPadding]
      have halpha : alphaPoints img = [] := by
        rw [List.eq_nil_iff_forall_not_mem]
        intro p hp
        have := (mem_alphaPoints img p).mp hp
        exact this.2.2 (hall p.1 this.1 p.2 this.2.1)
      rw [show getbbox img = none from by rw [getbbox, halpha]]
  · intro res hres
    rw [getTrimmedImageWithPadding] at hres
    cases hbb : getbbox img with
    | none => rw [hbb] at hres; simp at hres
    | some b =>
        obtain ⟨x1, y1, x2, y2⟩ := b
        rw [hbb] at hres
        simp only [Option.some_inj] at hres
        obtain ⟨hbound, hax1, hay1, hax2, hay2⟩ :=
          getbbox_some_spec img x1 y1 x2 y2 hbb
        refine ⟨x1, y1, x2, y2, ?_, ?_, ?_, ?_, ?_, hres.symm⟩
        · intro x y hx hy ha
          have := hbound (x, y) ((mem_alphaPoints img (x, y)).mpr ⟨hx, hy, ha⟩)
          exact this
        · obtain ⟨p, hp, hpe⟩ := hax1
          have := (mem_alphaPoints img p).mp hp
          exact ⟨p.2, this.2.1, by rw [← hpe]; exact this.2.2⟩
        · obtain ⟨p, hp, hpe⟩ := hay1
          have := (mem_alphaPoints img p).mp hp
          exact ⟨p.1, this.1, by rw [← hpe]; exact this.2.2⟩
        · obtain ⟨p, hp, hpe⟩ := hax2
          have := (mem_alphaPoints img p).mp hp
          refine ⟨p.2, this.2.1, ?_⟩
          rw [show x2 - 1 = p.1 from by omega]
          exact this.2.2
        · obtain ⟨p, hp, hpe⟩ := hay2
          have := (mem_alphaPoints img p).mp hp
          refine ⟨p.1, this.1, ?_⟩
          rw [show y2 - 1 = p.2 from by omega]
          exact this.2.2

/-- Witness for claim C6: a fully transparent image trims to nothing. -/
theorem claim_C6_witness :
    getTrimmedImageWithPadding transparentImg 40 20 = none :=
  (claim_C6 transparentImg).1.mpr (by decide)

/-! Lemmas about the flood fill. -/

theorem matchSeed_self (s : RGBA) : matchSeed s s = true := by
  simp [matchSeed]

theorem mem_gridF (wd ht : Nat) (p : Int × Int) :
    p ∈ gridF wd ht ↔ inGridZ wd ht p := by
  obtain ⟨px, py⟩ := p
  simp only [gridF, Finset.mem_image, Finset.mem_product, Finset.mem_range,
    Prod.exists, inGridZ]
  constructor
  · rintro ⟨a, b, ⟨ha, hb⟩, heq⟩
    rw [Prod.mk.injEq] at heq
    obtain ⟨h1, h2⟩ := heq
    subst h1; subst h2
    refine ⟨by omega, by exact_mod_cast ha, by omega, by exact_mod_cast hb⟩
  · rintro ⟨h1, h2, h3, h4⟩
    refine ⟨px.toNat, py.toNat, ⟨by omega, by omega⟩, ?_⟩
    rw [Prod.mk.injEq]
    constructor <;> omega

theorem card_gridF (wd ht : Nat) : (gridF wd ht).card = wd * ht := by
  rw [gridF, Finset.card_image_of_injective _ ?_, Finset.card_product,
    Finset.card_range, Finset.card_range]
  intro a b hab
  rw [Prod.mk.injEq] at hab
  obtain ⟨h1, h2⟩ := hab
  rw [Prod.ext_iff]
  constructor <;> omega

theorem floodLoop_master (img : Img) :
    ∀ (fuel : Nat) (stack : List (Int × Int)) (visited cleared : Finset (Int × Int)),
      visited ⊆ gridF img.w img.h →
      cleared = visited.filter
        (fun p => matchSeed (img.pxZ (0, 0)) (img.pxZ p) = true) →
      (∀ p ∈ cleared, ∀ q ∈ neighborsZ p, inGridZ img.w img.h q →
        q ∈ stack ∨ q ∈ visited) →
      (∀ q ∈ stack, q = (0, 0) ∨ ∃ p ∈ cleared, q ∈ neighborsZ p) →
      (inGridZ img.w img.h (0, 0) → (0, 0) ∈ stack ∨ (0, 0) ∈ visited) →
      (∀ p ∈ cleared, ReachSeed img p) →
      5 * (img.w * img.h - visited.card) + stack.length < fuel →
      floodPost img
        (floodLoop img.pxZ img.w img.h (img.pxZ (0, 0)) fuel stack visited cleared) := by
  intro fuel
  induction fuel with
  | zero =>
      intro stack visited cleared _ _ _ _ _ _ hfuel
      omega
  | succ n ih =>
      intro stack visited cleared hsub hclr hI3 hI4 hI5 hreach hfuel
      cases stack with
      | nil =>
          refine ⟨visited, hsub, hclr, ?_, ?_, hreach⟩
          · intro hg
            rcases hI5 hg with h | h
            · exact absurd h (by simp)
            · exact h
          · intro p hp q hq hqg
            rcases hI3 p hp q hq hqg with h | h
            · exact absurd h (by simp)
            · exact h
      | cons p rest =>
          by_cases hskip : p ∈ visited ∨ ¬ inGridZ img.w img.h p
          · rw [show floodLoop img.pxZ img.w img.h (img.pxZ (0, 0)) (n + 1)
                (p :: rest) visited cleared
                = if p ∈ visited ∨ ¬ inGridZ img.w img.h p then
                    floodLoop img.pxZ img.w img.h (img.pxZ (0, 0)) n rest visited cleared
                  else
                    if matchSeed (img.pxZ (0, 0))
                        (if p ∈ cleared then zeroPix else img.pxZ p) then
                      floodLoop img.pxZ img.w img.h (img.pxZ (0, 0)) n
                        (neighborsZ p ++ rest) (insert p visited) (insert p cleared)
                    else
                      floodLoop img.pxZ img.w img.h (img.pxZ (0, 0)) n rest
                        (insert p visited) cleared
              from rfl, if_pos hskip]
            refine ih rest visited cleared hsub hclr ?_ ?_ ?_ hreach ?_
            · intro p' hp' q hq hqg
              rcases hI3 p' hp' q hq hqg with h | h
              · rcases List.mem_cons.mp h with rfl | h
                · rcases hskip with h2 | h2
                  · exact Or.inr h2
                  · exact absurd hqg h2
                · exact Or.inl h
              · exact Or.inr h
            · intro q hq
              exact hI4 q (List.mem_cons_of_mem p hq)
            · intro hg
              rcases hI5 hg with h | h
              · rcases List.mem_cons.mp h with heq | h
                · rcases hskip with h2 | h2
                  · exact Or.inr (heq ▸ h2)
                  · exact absurd (heq ▸ hg) h2
                · exact Or.inl h
              · exact Or.inr h
            · simp only [List.length_cons] at hfuel
              omega
          · push_neg at hskip
            obtain ⟨hpv, hpg⟩ := hskip
            have hpc : p ∉ cleared := by
              intro hc
              rw [hclr] at hc
              exact hpv (Finset.mem_of_mem_filter p hc)
            have hcard : visited.card + 1 ≤ img.w * img.h := by
              have : insert p visited ⊆ gridF img.w img.h :=
                Finset.insert_subset ((mem_gridF img.w img.h p).mpr hpg) hsub
              calc visited.card + 1
                  = (insert p visited).card :=
                    (Finset.card_insert_of_not_mem hpv).symm
                _ ≤ (gridF img.w img.h).card := Finset.card_le_card this
                _ = img.w * img.h := card_gridF img.w img.h
            rw [show floodLoop img.pxZ img.w img.h (img.pxZ (0, 0)) (n + 1)
                (p :: rest) visited cleared
                = if p ∈ visited ∨ ¬ inGridZ img.w img.h p then
                    floodLoop img.pxZ img.w img.h (img.pxZ (0, 0)) n rest visited cleared
                  else
                    if matchSeed (img.pxZ (0, 0))
                        (if p ∈ cleared then zeroPix else img.pxZ p) then
                      floodLoop img.pxZ img.w img.h (img.pxZ (0, 0)) n
                        (neighborsZ p ++ rest) (insert p visited) (insert p cleared)
                    else
                      floodLoop img.pxZ img.w img.h (img.pxZ (0, 0)) n rest
                        (insert p visited) cleared
              from rfl, if_neg (by push_neg; exact ⟨hpv, hpg⟩), if_neg hpc]
            by_cases hmB : matchSeed (img.pxZ (0, 0)) (img.pxZ p) = true
            · rw [if_pos hmB]
              refine ih (neighborsZ p ++ rest) (insert p visited) (insert p cleared)
                (Finset.insert_subset ((mem_gridF img.w img.h p).mpr hpg) hsub)
                ?_ ?_ ?_ ?_ ?_ ?_
              · rw [Finset.filter_insert, if_pos hmB, hclr]
              · intro p' hp' q hq hqg
                rcases Finset.mem_insert.mp hp' with rfl | hp'
                · exact Or.inl (List.mem_append_left rest hq)
                · rcases hI3 p' hp' q hq hqg with h | h
                  · rcases List.mem_cons.mp h with rfl | h
                    · exact Or.inr (Finset.mem_insert_self q visited)
                    · exact Or.inl (List.mem_append_right _ h)
                  · exact Or.inr (Finset.mem_insert_of_mem h)
              · intro q hq
                rcases List.mem_append.mp hq with h | h
                · exact Or.inr ⟨p, Finset.mem_insert_self p cleared, h⟩
                · rcases hI4 q (List.mem_cons_of_mem p h) with h2 | ⟨p', hp', hq'⟩
                  · exact Or.inl h2
                  · exact Or.inr ⟨p', Finset.mem_insert_of_mem hp', hq'⟩
              · intro hg
                rcases hI5 hg with h | h
                · rcases List.mem_cons.mp h with heq | h
                  · exact Or.inr (heq ▸ Finset.mem_insert_self p visited)
                  · exact Or.inl (List.mem_append_right _ h)
                · exact Or.inr (Finset.mem_insert_of_mem h)
              · intro p' hp'
                rcases Finset.mem_insert.mp hp' with rfl | hp'
                · rcases hI4 p' (List.mem_cons_self p' rest) with rfl | ⟨p2, hp2, hadj⟩
                  · exact ReachSeed.base hpg hmB
                  · exact ReachSeed.step p2 p' (hreach p2 hp2) hadj hpg hmB
                · exact hreach p' hp'
              · have hlen : (neighborsZ p ++ rest).length = 4 + rest.length := by
                  simp only [List.length_append, neighborsZ, List.length_cons,
                    List.length_nil]
                rw [hlen, Finset.card_insert_of_not_mem hpv]
                simp only [List.length_cons] at hfuel
                omega
            · rw [if_neg hmB]
              refine ih rest (insert p visited) cleared
                (Finset.insert_subset ((mem_gridF img.w img.h p).mpr hpg) hsub)
                ?_ ?_ ?_ ?_ hreach ?_
              · rw [Finset.filter_insert, if_neg hmB, hclr]
              · intro p' hp' q hq hqg
                rcases hI3 p' hp' q hq hqg with h | h
                · rcases List.mem_cons.mp h with rfl | h
                  · exact Or.inr (Finset.mem_insert_self q visited)
                  · exact Or.inl h
                · exact Or.inr (Finset.mem_insert_of_mem h)
              · intro q hq
                exact hI4 q (List.mem_cons_of_mem p hq)
              · intro hg
                rcases hI5 hg with h | h
                · rcases List.mem_cons.mp h with heq | h
                  · exact Or.inr (heq ▸ Finset.mem_insert_self p visited)
                  · exact Or.inl h
                · exact Or.inr (Finset.mem_insert_of_mem h)
              · rw [Finset.card_insert_of_not_mem hpv]
                simp only [List.length_cons] at hfuel
                omega

theorem floodFill_post (img : Img) : floodPost img (floodFill img) := by
  rw [floodFill]
  refine floodLoop_master img (5 * (img.w * img.h) + 2) [(0, 0)] ∅ ∅
    (Finset.empty_subset _) (by rw [Finset.filter_empty]) ?_ ?_ ?_ ?_ ?_
  · intro p hp
    exact absurd hp (Finset.not_mem_empty p)
  · intro q hq
    rcases List.mem_singleton.mp hq with rfl
    exact Or.inl rfl
  · intro _
    exact Or.inl (List.mem_singleton.mpr rfl)
  · intro p hp
    exact absurd hp (Finset.not_mem_empty p)
  · simp

theorem mem_floodFill_iff (img : Img) (p : Int × Int) :
    p ∈ floodFill img ↔ ReachSeed img p := by
  obtain ⟨V, hVsub, hfilter, hV0, hclosure, hsound⟩ := floodFill_post img
  constructor
  · exact hsound p
  · intro hr
    induction hr with
    | base hg hm =>
        rw [hfilter]
        exact Finset.mem_filter.mpr ⟨hV0 hg, hm⟩
    | step p' q hp' hadj hg hm ih =>
        rw [hfilter]
        exact Finset.mem_filter.mpr ⟨hclosure p' ih q hadj hg, hm⟩

/-- Claim C2: the flood fill clears exactly the pixels connected to the
seed (0,0) by a 4-connected path every pixel of which matches the seed
within the per-channel tolerance of 30, and leaves every other pixel
unchanged. The image must have its seed pixel, hence positive size. -/
theorem claim_C2 (img : Img) (hw : 0 < img.w) (hh : 0 < img.h)
    (x y : Nat) (hx : x < img.w) (hy : y < img.h) :
    (ReachSeed img ((x : Int), (y : Int)) →
      (segmentImage img).px x y = zeroPix)
    ∧ (¬ ReachSeed img ((x : Int), (y : Int)) →
      (segmentImage img).px x y = img.px x y) := by
  have hseg : (segmentImage img).px x y
      = if ((x : Int), (y : Int)) ∈ floodFill img then zeroPix
        else img.px x y := rfl
  constructor
  · intro hr
    rw [hseg, if_pos ((mem_floodFill_iff img _).mpr hr)]
  · intro hr
    rw [hseg, if_neg (fun hc => hr ((mem_floodFill_iff img _).mp hc))]

/-- Witness for claim C2 on the concrete 2 by 1 design: the seed pixel is
reachable from itself and is cleared. -/
theorem claim_C2_witness : (segmentImage designImg).px 0 0 = zeroPix :=
  (claim_C2 designImg (by decide) (by decide) 0 0 (by decide) (by decide)).1
    (ReachSeed.base (by decide) (by decide))

/-! Lemmas about the URL loop and the domain loop. -/

theorem urlStep_counts (env : GenEnv) (cfg : GenCfg) (rules : List PyRule)
    (st : DomState) (url : String) :
    (urlStep env cfg rules st url).processed + (urlStep env cfg rules st url).skipped
      = st.processed + st.skipped + 1 := by
  rw [urlStep]
  cases (processUrl env cfg rules st.cache st.zips url).2.2 <;> simp <;> omega

theorem urlLoop_counts (env : GenEnv) (cfg : GenCfg) (rules : List PyRule) :
    ∀ (window : List String) (st : DomState),
      (urlLoop env cfg rules window st).processed
          + (urlLoop env cfg rules window st).skipped
        = st.processed + st.skipped + window.length := by
  intro window
  induction window with
  | nil => intro st; simp [urlLoop]
  | cons u rest ih =>
      intro st
      rw [show urlLoop env cfg rules (u :: rest) st
          = urlLoop env cfg rules rest (urlStep env cfg rules st u) from rfl]
      rw [ih (urlStep env cfg rules st u), urlStep_counts]
      simp only [List.length_cons]
      omega

theorem dictGet_dictSet {β : Type} (k k' : String) (v : β) :
    ∀ l, dictGet (dictSet l k v) k' = if k = k' then some v else dictGet l k' := by
  intro l
  induction l with
  | nil => simp [dictSet, dictGet]
  | cons e rest ih =>
      obtain ⟨k2, v2⟩ := e
      rw [dictSet]
      by_cases h2 : k2 = k
      · subst h2
        rw [if_pos rfl, dictGet]
        by_cases h3 : k2 = k'
        · subst h3; rw [if_pos rfl, if_pos rfl]
        · rw [if_neg h3, if_neg h3, dictGet, if_neg h3]
      · rw [if_neg h2, dictGet]
        by_cases h3 : k2 = k'
        · subst h3
          rw [if_pos rfl, dictGet, if_pos rfl, if_neg ?_]
          intro he; exact h2 he.symm
        · rw [if_neg h3, ih, dictGet, if_neg h3]

theorem domainLoop_summary_sound (env : GenEnv) (cfg : GenCfg) :
    ∀ (doms : List (String × List PyRule)) (i : Nat) (st : RunSt),
      (∀ d p s t, dictGet st.summary d = some (p, s, t) → p + s = t) →
      ∀ d p s t,
        dictGet (domainLoop env cfg doms i st).summary d = some (p, s, t) →
        p + s = t := by
  intro doms
  induction doms with
  | nil => intro i st hst; exact hst
  | cons e rest ih =>
      obtain ⟨dn, rules⟩ := e
      intro i st hst
      rw [domainLoop]
      by_cases hbrk : maxRepoSizeMB ≤ env.repoSizeMB i
      · rw [if_pos hbrk]; exact hst
      · rw [if_neg hbrk]
        cases hf : env.fetchList dn with
        | none => exact ih (i + 1) st hst
        | some allUrls =>
            dsimp only
            by_cases hwin : computeWindow allUrls (dictGetD st.log dn []) cfg.maxUrls = []
            · rw [if_pos hwin]
              exact ih (i + 1) st hst
            · rw [if_neg hwin]
              refine ih (i + 1) _ ?_
              intro d p s t hd
              simp only at hd
              rw [dictGet_dictSet] at hd
              by_cases hdn : dn = d
              · rw [if_pos hdn] at hd
                injection hd with hd
                injection hd with h1 hd
                injection hd with h2 h3
                subst h1; subst h2; subst h3
                have := urlLoop_counts env cfg (sortRules rules)
                  (computeWindow allUrls (dictGetD st.log dn []) cfg.maxUrls)
                  ⟨[], st.zips, 0, 0, []⟩
                simpa using this
              · rw [if_neg hdn] at hd
                exact hst d p s t hd

/-- Claim C10: every recorded per-domain summary satisfies
processed + skipped = total_to_process, the window length. -/
theorem claim_C10 (cfg : GenCfg) (env : GenEnv)
    (initLog : List (String × List String)) (d : String) (p s t : Nat)
    (h : dictGet (runMain cfg env initLog).summary d = some (p, s, t)) :
    p + s = t := by
  refine domainLoop_summary_sound env cfg cfg.domains 0 ⟨[], initLog, []⟩ ?_ d p s t h
  intro d' p' s' t' hd'
  rw [show dictGet (RunSt.mk [] initLog []).summary d' = none from rfl] at hd'
  exact absurd hd' (by simp)

/-- Witness for claim C10: the concrete run records the summary (0, 1, 1)
for its domain, and the counters add up to the window length. -/
theorem claim_C10_witness :
    dictGet (runMain c10Cfg c10Env []).summary "e" = some (0, 1, 1)
    ∧ 0 + 1 = 1 :=
  ⟨by decide, claim_C10 c10Cfg c10Env [] "e" 0 1 1 (by decide)⟩

theorem urlLoop_append (env : GenEnv) (cfg : GenCfg) (rules : List PyRule) :
    ∀ (pre post : List String) (st : DomState),
      urlLoop env cfg rules (pre ++ post) st
        = urlLoop env cfg rules post (urlLoop env cfg rules pre st) := by
  intro pre
  induction pre with
  | nil => intro post st; rfl
  | cons u rest ih => intro post st; exact ih post (urlStep env cfg rules st u)

/-- Claim C8: a per-URL exception inside the try block (signalled by the
raised outcome) increments only the skipped counter of the domain, leaves
the processed counter and the success list unchanged, and the loop
continues with the remaining URLs of the window. -/
theorem claim_C8 (env : GenEnv) (cfg : GenCfg) (rules : List PyRule)
    (st : DomState) (pre post : List String) (u : String)
    (hraise : (processUrl env cfg rules (urlLoop env cfg rules pre st).cache
        (urlLoop env cfg rules pre st).zips u).2.2 = UrlRes.raised
      ∨ (processUrl env cfg rules (urlLoop env cfg rules pre st).cache
        (urlLoop env cfg rules pre st).zips u).2.2 = UrlRes.dlFail) :
    (urlStep env cfg rules (urlLoop env cfg rules pre st) u).skipped
        = (urlLoop env cfg rules pre st).skipped + 1
    ∧ (urlStep env cfg rules (urlLoop env cfg rules pre st) u).processed
        = (urlLoop env cfg rules pre st).processed
    ∧ (urlStep env cfg rules (urlLoop env cfg rules pre st) u).success
        = (urlLoop env cfg rules pre st).success
    ∧ urlLoop env cfg rules (pre ++ u :: post) st
        = urlLoop env cfg rules post
          (urlStep env cfg rules (urlLoop env cfg rules pre st) u) := by
  refine ⟨?_, ?_, ?_, ?_⟩
  · rcases hraise with h | h <;> rw [urlStep, h]
  · rcases hraise with h | h <;> rw [urlStep, h]
  · rcases hraise with h | h <;> rw [urlStep, h]
  · rw [urlLoop_append]
    rfl

/-- Witness for claim C8: a URL whose brightness sample raises IndexError
is counted skipped and the loop moves on. -/
theorem claim_C8_witness :
    (urlStep c8Env c8Cfg (sortRules [c8Rule])
        (urlLoop c8Env c8Cfg (sortRules [c8Rule]) [] ⟨[], [], 0, 0, []⟩) "u1").skipped
      = (urlLoop c8Env c8Cfg (sortRules [c8Rule]) [] ⟨[], [], 0, 0, []⟩).skipped + 1
    ∧ (urlStep c8Env c8Cfg (sortRules [c8Rule])
        (urlLoop c8Env c8Cfg (sortRules [c8Rule]) [] ⟨[], [], 0, 0, []⟩) "u1").processed
      = (urlLoop c8Env c8Cfg (sortRules [c8Rule]) [] ⟨[], [], 0, 0, []⟩).processed
    ∧ (urlStep c8Env c8Cfg (sortRules [c8Rule])
        (urlLoop c8Env c8Cfg (sortRules [c8Rule]) [] ⟨[], [], 0, 0, []⟩) "u1").success
      = (urlLoop c8Env c8Cfg (sortRules [c8Rule]) [] ⟨[], [], 0, 0, []⟩).success
    ∧ urlLoop c8Env c8Cfg (sortRules [c8Rule]) ([] ++ "u1" :: []) ⟨[], [], 0, 0, []⟩
      = urlLoop c8Env c8Cfg (sortRules [c8Rule]) []
          (urlStep c8Env c8Cfg (sortRules [c8Rule])
            (urlLoop c8Env c8Cfg (sortRules [c8Rule]) [] ⟨[], [], 0, 0, []⟩) "u1") :=
  claim_C8 c8Env c8Cfg (sortRules [c8Rule]) ⟨[], [], 0, 0, []⟩ [] [] "u1"
    (Or.inl (by decide))

theorem domainLoop_take (env : GenEnv) (cfg : GenCfg) :
    ∀ (doms : List (String × List PyRule)) (k i : Nat) (st : RunSt),
      (∀ j, j < k → env.repoSizeMB (i + j) < maxRepoSizeMB) →
      maxRepoSizeMB ≤ env.repoSizeMB (i + k) →
      domainLoop env cfg doms i st = domainLoop env cfg (doms.take k) i st := by
  intro doms
  induction doms with
  | nil => intro k i st _ _; rw [List.take_nil]
  | cons e rest ih =>
      obtain ⟨dn, rules⟩ := e
      intro k i st hbefore hat
      cases k with
      | zero =>
          rw [List.take_zero]
          rw [show i + 0 = i from rfl] at hat
          rw [domainLoop]
          rw [domainLoop, if_pos hat]
      | succ k' =>
          have hlt : env.repoSizeMB i < maxRepoSizeMB := by
            have := hbefore 0 (Nat.succ_pos k')
            rw [show i + 0 = i from rfl] at this
            exact this
          have hnot : ¬ maxRepoSizeMB ≤ env.repoSizeMB i := not_le.mpr hlt
          rw [List.take_succ_cons, domainLoop, domainLoop, if_neg hnot,
            if_neg hnot]
          have hstep : ∀ st2 : RunSt,
              domainLoop env cfg rest (i + 1) st2
                = domainLoop env cfg (rest.take k') (i + 1) st2 := by
            intro st2
            refine ih k' (i + 1) st2 ?_ ?_
            · intro j hj
              have := hbefore (j + 1) (by omega)
              rw [show i + (j + 1) = i + 1 + j from by omega] at this
              exact this
            · rw [show i + 1 + k' = i + (k' + 1) from by omega]
              exact hat
          cases hf : env.fetchList dn with
          | none => exact hstep st
          | some allUrls =>
              dsimp only
              by_cases hwin :
                  computeWindow allUrls (dictGetD st.log dn []) cfg.maxUrls = []
              · rw [if_pos hwin, if_pos hwin]
                exact hstep st
              · rw [if_neg hwin, if_neg hwin]
                exact hstep _

theorem domainLoop_untouched (env : GenEnv) (cfg : GenCfg) :
    ∀ (doms : List (String × List PyRule)) (i : Nat) (st : RunSt)
      (name : String), name ∉ doms.map Prod.fst →
      dictGet (domainLoop env cfg doms i st).summary name = dictGet st.summary name
      ∧ dictGet (domainLoop env cfg doms i st).log name = dictGet st.log name := by
  intro doms
  induction doms with
  | nil => intro i st name _; exact ⟨rfl, rfl⟩
  | cons e rest ih =>
      obtain ⟨dn, rules⟩ := e
      intro i st name hname
      have hdn : dn ≠ name := by
        intro he
        exact hname (by simp [he])
      have hrest : name ∉ rest.map Prod.fst := by
        intro hc
        exact hname (by simp [hc])
      rw [domainLoop]
      by_cases hbrk : maxRepoSizeMB ≤ env.repoSizeMB i
      · rw [if_pos hbrk]; exact ⟨rfl, rfl⟩
      · rw [if_neg hbrk]
        cases hf : env.fetchList dn with
        | none => exact ih (i + 1) st name hrest
        | some allUrls =>
            dsimp only
            by_cases hwin :
                computeWindow allUrls (dictGetD st.log dn []) cfg.maxUrls = []
            · rw [if_pos hwin]
              exact ih (i + 1) st name hrest
            · rw [if_neg hwin]
              obtain ⟨h1, h2⟩ := ih (i + 1) _ name hrest
              refine ⟨?_, ?_⟩
              · rw [h1]
                simp only
                rw [dictGet_dictSet, if_neg hdn]
              · rw [h2]
                simp only
                by_cases hsucc : (urlLoop env cfg (sortRules rules)
                    (computeWindow allUrls (dictGetD st.log dn []) cfg.maxUrls)
                    ⟨[], st.zips, 0, 0, []⟩).success = []
                · rw [if_pos hsucc]
                · rw [if_neg hsucc, dictGet_dictSet, if_neg hdn]

/-- Claim C9: once the repository size scan reaches the ceiling before
domain k, the whole domain loop behaves as if the remaining domains were
absent, and no remaining domain gains a summary entry or has its stored
history changed. -/
theorem claim_C9 (cfg : GenCfg) (env : GenEnv)
    (initLog : List (String × List String)) (k : Nat)
    (hk : k < cfg.domains.length)
    (hbefore : ∀ j, j < k → env.repoSizeMB j < maxRepoSizeMB)
    (hat : maxRepoSizeMB ≤ env.repoSizeMB k) :
    (∀ st : RunSt, domainLoop env cfg cfg.domains 0 st
        = domainLoop env cfg (cfg.domains.take k) 0 st)
    ∧ (∀ name, name ∉ (cfg.domains.take k).map Prod.fst →
        dictGet (runMain cfg env initLog).summary name = none
        ∧ dictGet (runMain cfg env initLog).log name = dictGet initLog name) := by
  have htake : ∀ st : RunSt, domainLoop env cfg cfg.domains 0 st
      = domainLoop env cfg (cfg.domains.take k) 0 st := by
    intro st
    refine domainLoop_take env cfg cfg.domains k 0 st ?_ ?_
    · intro j hj
      rw [show 0 + j = j from by omega]
      exact hbefore j hj
    · rw [show 0 + k = k from by omega]
      exact hat
  refine ⟨htake, ?_⟩
  intro name hname
  have hout : dictGet (domainLoop env cfg cfg.domains 0
        (RunSt.mk [] initLog [])).summary name
      = dictGet (RunSt.mk [] initLog []).summary name
      ∧ dictGet (domainLoop env cfg cfg.domains 0
        (RunSt.mk [] initLog [])).log name
      = dictGet (RunSt.mk [] initLog []).log name := by
    rw [htake]
    exact domainLoop_untouched env cfg (cfg.domains.take k) 0
      (RunSt.mk [] initLog []) name hname
  exact ⟨hout.1, hout.2⟩

/-- Witness for claim C9: with the ceiling reached before the second
domain, the run equals the run over only the first domain, and the second
domain is untouched. -/
theorem claim_C9_witness :
    (∀ st : RunSt, domainLoop c9Env c9Cfg c9Cfg.domains 0 st
        = domainLoop c9Env c9Cfg (c9Cfg.domains.take 1) 0 st)
    ∧ (∀ name, name ∉ (c9Cfg.domains.take 1).map Prod.fst →
        dictGet (runMain c9Cfg c9Env []).summary name = none
        ∧ dictGet (runMain c9Cfg c9Env []).log name = dictGet [] name) :=
  claim_C9 c9Cfg c9Env [] 1 (by decide)
    (fun j hj => by interval_cases j <;> decide) (by decide)

/-- Claim C1 (failing run): the end-to-end scenario of the claim, with two
fetched URLs each matching the non-skip rule with crop coordinates,
passing the brightness check and compositing one image for mockup set A,
produces no archive at all and leaves the history empty, because the save
of the RGBA composite raises inside the per-URL handler; both URLs are
counted skipped. -/
theorem claim_C1_run_eval :
    runMain bugCfg bugEnv []
      = { archives := [], log := [], summary := [("d.com", (0, 2, 2))] } := by
  decide
